import Mathlib

/-!
A shallow embedding of the terminal todo-list application (src/src/main.rs)
and proofs about its interaction state machine and its persistence layer.

Rust strings are modelled as lists of unicode scalar values (Lean Char =
Rust char), Vec as List, usize indices as Nat (with Nat subtraction playing
the role of saturating_sub), and Option as Option.  The key-event run loop
is modelled as a step function from the application state and a key code to
a step outcome; a Rust panic (out-of-range indexing) is the outcome crash,
and quitting the loop (the q key) is the outcome exit.
-/

/-- The three input modes of the application (enum InputMode).  The mode the
spec calls Creating is called Editing in the source. -/
inductive InputMode where
  | Normal
  | Editing
  | TaskEditing
deriving DecidableEq, Repr

/-- A todo item (struct Todo): a title and a completed flag. -/
structure Todo where
  title : List Char
  completed : Bool
deriving DecidableEq, Repr

/-- The live application state (struct App).  The on-disk file is not part
of this record; persistence is modelled by the saved flag of a step. -/
structure App where
  todos : List Todo
  input : List Char
  input_mode : InputMode
  selected_index : Option Nat
  editing_task_index : Option Nat
deriving DecidableEq, Repr

/-- The key codes the application distinguishes (crossterm KeyCode).  All
remaining crossterm variants behave identically and are collapsed into
other. -/
inductive KeyCode where
  | char (c : Char)
  | enter
  | down
  | up
  | delete
  | backspace
  | esc
  | other
deriving DecidableEq, Repr

/-- Outcome of handling one key event in run_app: continue the loop with a
new state (recording whether save_todos was invoked), leave the loop
(KeyCode q in Normal mode), or panic on an out-of-range index. -/
inductive Step where
  | next (a : App) (saved : Bool)
  | exit
  | crash
deriving DecidableEq, Repr

/-- The Normal-mode arm of the match in run_app (src/src/main.rs lines
101-155). -/
def stepNormal (a : App) (k : KeyCode) : Step :=
  match k with
  | .char c =>
    if c = 'e' then
      .next { a with input_mode := .Editing } false
    else if c = 'q' then
      .exit
    else if c = 'j' then
      match a.selected_index with
      | some index =>
        if index < a.todos.length - 1 then
          .next { a with selected_index := some (index + 1) } false
        else
          .next a false
      | none => .next { a with selected_index := some 0 } false
    else if c = 'k' then
      match a.selected_index with
      | some index =>
        if index > 0 then
          .next { a with selected_index := some (index - 1) } false
        else
          .next a false
      | none => .next a false
    else if c = ' ' then
      match a.selected_index with
      | some index =>
        if h : index < a.todos.length then
          let t := a.todos.get ⟨index, h⟩
          .next { a with todos := a.todos.set index { t with completed := !t.completed } } true
        else
          .next a false
      | none => .next a false
    else
      .next a false
  | .enter =>
    match a.selected_index with
    | some index =>
      if h : index < a.todos.length then
        .next { a with input := (a.todos.get ⟨index, h⟩).title,
                       editing_task_index := some index,
                       input_mode := .TaskEditing } false
      else
        .next a false
    | none => .next a false
  | .down =>
    match a.selected_index with
    | some index =>
      if index < a.todos.length - 1 then
        .next { a with selected_index := some (index + 1) } false
      else
        .next a false
    | none => .next { a with selected_index := some 0 } false
  | .up =>
    match a.selected_index with
    | some index =>
      if index > 0 then
        .next { a with selected_index := some (index - 1) } false
      else
        .next a false
    | none => .next a false
  | .delete | .backspace =>
    match a.selected_index with
    | some index =>
      if index < a.todos.length then
        let todos2 := a.todos.eraseIdx index
        let sel2 : Option Nat :=
          if todos2.isEmpty then none
          else if index = todos2.length then some (index - 1)
          else some index
        .next { a with todos := todos2, selected_index := sel2 } true
      else
        .next a false
    | none => .next a false
  | _ => .next a false

/-- The TaskEditing-mode arm of the match in run_app (src/src/main.rs lines
156-179).  The Enter arm indexes app.todos[index] without a bounds check;
an out-of-range editing_task_index therefore crashes. -/
def stepTaskEditing (a : App) (k : KeyCode) : Step :=
  match k with
  | .enter =>
    match a.editing_task_index with
    | some index =>
      if a.input.isEmpty then
        .next { a with editing_task_index := none, input_mode := .Normal } false
      else
        if h : index < a.todos.length then
          let t := a.todos.get ⟨index, h⟩
          .next { a with todos := a.todos.set index { t with title := a.input },
                         input := [],
                         editing_task_index := none,
                         input_mode := .Normal } true
        else
          .crash
    | none => .next a false
  | .char c => .next { a with input := a.input ++ [c] } false
  | .backspace => .next { a with input := a.input.dropLast } false
  | .esc =>
    .next { a with input := [], editing_task_index := none, input_mode := .Normal } false
  | _ => .next a false

/-- The Editing-mode (spec: Creating) arm of the match in run_app
(src/src/main.rs lines 180-204).  Esc only switches the mode back; the
input buffer is left as it is. -/
def stepEditing (a : App) (k : KeyCode) : Step :=
  match k with
  | .enter =>
    if a.input.isEmpty then
      .next { a with input_mode := .Normal } false
    else
      let a2 := { a with todos := a.todos ++ [Todo.mk a.input false], input := [] }
      let a3 := if a2.selected_index = none then { a2 with selected_index := some 0 } else a2
      .next { a3 with input_mode := .Normal } true
  | .char c => .next { a with input := a.input ++ [c] } false
  | .backspace => .next { a with input := a.input.dropLast } false
  | .esc => .next { a with input_mode := .Normal } false
  | _ => .next a false

/-- One iteration of the key-event dispatch in run_app: the outer match on
app.input_mode. -/
def step (a : App) (k : KeyCode) : Step :=
  match a.input_mode with
  | .Normal => stepNormal a k
  | .TaskEditing => stepTaskEditing a k
  | .Editing => stepEditing a k

/-- The application state main constructs before entering run_app
(src/src/main.rs lines 71-77), for a given loaded todo list: Normal mode,
empty input, no selection, no editing index.  App::default builds the same
state. -/
def App.initial (todos : List Todo) : App :=
  { todos := todos
    input := []
    input_mode := .Normal
    selected_index := none
    editing_task_index := none }

/-! ## The Store: todos.json, serde_json serialization of Vec of Todo

save_todos serializes the list with serde_json::to_string and overwrites
todos.json; load_todos reads todos.json and parses it with
serde_json::from_str, substituting the empty list when the file is missing
or the parse fails.  The serializer below reproduces serde_json compact
output for this concrete type (including its string-escaping rules); the
parser models serde_json deserialization restricted to that canonical
grammar (exact field order, no interstitial whitespace, no surrogate-pair
escapes - forms the serializer never emits). -/

/-- An opening curly brace character. -/
def lbrace : Char := '\x7b'

/-- A closing curly brace character. -/
def rbrace : Char := '\x7d'

/-- Lowercase hexadecimal digit, as serde_json uses for control-character
escapes. -/
def hexDigitChar (n : Nat) : Char :=
  if n < 10 then Char.ofNat (48 + n) else Char.ofNat (87 + n)

/-- serde_json escaping of one character inside a JSON string: quote and
backslash get two-character escapes, the five control characters with short
escapes get those, any other control character below 0x20 becomes a
lowercase \u00XX escape, and everything else is emitted as itself. -/
def escChar (c : Char) : List Char :=
  let n := c.toNat
  if n = 34 then ['\\', '\"']
  else if n = 92 then ['\\', '\\']
  else if n = 8 then ['\\', 'b']
  else if n = 9 then ['\\', 't']
  else if n = 10 then ['\\', 'n']
  else if n = 12 then ['\\', 'f']
  else if n = 13 then ['\\', 'r']
  else if n < 32 then ['\\', 'u', '0', '0', hexDigitChar (n / 16), hexDigitChar (n % 16)]
  else [c]

/-- A JSON string literal: quote, escaped contents, quote. -/
def encodeJString (s : List Char) : List Char :=
  '\"' :: (s.flatMap escChar ++ ['\"'])

/-- A JSON boolean literal. -/
def encodeBool (b : Bool) : List Char :=
  if b then ['t', 'r', 'u', 'e'] else ['f', 'a', 'l', 's', 'e']

/-- The characters of the title key, its colon included. -/
def kTitle : List Char := ['\"', 't', 'i', 't', 'l', 'e', '\"', ':']

/-- The characters of the completed key, its colon included. -/
def kCompleted : List Char :=
  ['\"', 'c', 'o', 'm', 'p', 'l', 'e', 't', 'e', 'd', '\"', ':']

/-- serde_json compact serialization of one Todo: an object with the two
fields in declaration order. -/
def encodeTodo (t : Todo) : List Char :=
  lbrace :: (kTitle ++ encodeJString t.title ++ [','] ++ kCompleted
    ++ encodeBool t.completed ++ [rbrace])

/-- Comma-separated concatenation, as serde_json writes array elements. -/
def joinComma : List (List Char) → List Char
  | [] => []
  | [x] => x
  | x :: xs => x ++ ',' :: joinComma xs

/-- serde_json compact serialization of the whole list: a JSON array. -/
def encodeTodos (l : List Todo) : List Char :=
  '[' :: (joinComma (l.map encodeTodo) ++ [']'])

/-- Value of a hexadecimal digit character, either case. -/
def hexVal (c : Char) : Option Nat :=
  let n := c.toNat
  if 48 ≤ n ∧ n ≤ 57 then some (n - 48)
  else if 97 ≤ n ∧ n ≤ 102 then some (n - 87)
  else if 65 ≤ n ∧ n ≤ 70 then some (n - 55)
  else none

/-- The character denoted by a single-letter JSON escape. -/
def escCode (e : Char) : Option Char :=
  if e = '\"' then some '\"'
  else if e = '\\' then some '\\'
  else if e = '/' then some '/'
  else if e = 'b' then some (Char.ofNat 8)
  else if e = 't' then some (Char.ofNat 9)
  else if e = 'n' then some (Char.ofNat 10)
  else if e = 'f' then some (Char.ofNat 12)
  else if e = 'r' then some (Char.ofNat 13)
  else none

/-- Parse the body of a JSON string up to and including its closing quote,
returning the decoded contents and the remaining input.  Unescaped control
characters are rejected, as serde_json rejects them. -/
def unescape : List Char → Option (List Char × List Char)
  | [] => none
  | c :: rest =>
    if c = '\"' then some ([], rest)
    else if c = '\\' then
      match rest with
      | [] => none
      | e :: rest2 =>
        if e = 'u' then
          match rest2 with
          | h1 :: h2 :: h3 :: h4 :: rest3 =>
            match hexVal h1, hexVal h2, hexVal h3, hexVal h4 with
            | some a, some b, some c2, some d =>
              let n := 4096 * a + 256 * b + 16 * c2 + d
              if n.isValidChar then
                match unescape rest3 with
                | some (s, r) => some (Char.ofNat n :: s, r)
                | none => none
              else none
            | _, _, _, _ => none
          | _ => none
        else
          match escCode e with
          | some d =>
            match unescape rest2 with
            | some (s, r) => some (d :: s, r)
            | none => none
          | none => none
    else if c.toNat < 32 then none
    else
      match unescape rest with
      | some (s, r) => some (c :: s, r)
      | none => none

/-- Parse a JSON boolean literal. -/
def parseBool : List Char → Option (Bool × List Char)
  | 't' :: 'r' :: 'u' :: 'e' :: rest => some (true, rest)
  | 'f' :: 'a' :: 'l' :: 's' :: 'e' :: rest => some (false, rest)
  | _ => none

/-- Strip an exact expected prefix from the input. -/
def dropExact : List Char → List Char → Option (List Char)
  | [], s => some s
  | p :: ps, c :: cs => if c = p then dropExact ps cs else none
  | _ :: _, [] => none

/-- Parse one serialized Todo object. -/
def parseTodo (s : List Char) : Option (Todo × List Char) :=
  match dropExact (lbrace :: (kTitle ++ ['\"'])) s with
  | some r1 =>
    match unescape r1 with
    | some (ti, r2) =>
      match dropExact (',' :: kCompleted) r2 with
      | some r3 =>
        match parseBool r3 with
        | some (b, r4) =>
          match r4 with
          | c :: r5 => if c = rbrace then some (Todo.mk ti b, r5) else none
          | [] => none
        | none => none
      | none => none
    | none => none
  | none => none

/-- Parse one or more comma-separated Todo objects followed by the closing
bracket of the array.  The fuel argument bounds the number of elements; any
fuel at least the element count suffices. -/
def parseItems : Nat → List Char → Option (List Todo × List Char)
  | 0, _ => none
  | fuel + 1, s =>
    match parseTodo s with
    | some (t, rest) =>
      match rest with
      | c :: rest2 =>
        if c = ',' then
          match parseItems fuel rest2 with
          | some (l, r) => some (t :: l, r)
          | none => none
        else if c = ']' then some ([t], rest2)
        else none
      | [] => none
    | none => none

/-- Parse a whole serialized todo list: a JSON array consuming the entire
input. -/
def parseTodos (s : List Char) : Option (List Todo) :=
  match s with
  | '[' :: rest =>
    match rest with
    | ']' :: rest2 => if rest2.isEmpty then some [] else none
    | _ =>
      match parseItems (rest.length + 1) rest with
      | some (l, r) => if r.isEmpty then some l else none
      | none => none
  | _ => none

/-- The contents of todos.json as the process sees them: the file can be
absent, or hold some text. -/
inductive FileState where
  | missing
  | present (contents : List Char)
deriving DecidableEq, Repr

/-- App::save_todos (src/src/main.rs lines 50-54): serialize the list and
overwrite todos.json; the resulting file state. -/
def save_todos (todos : List Todo) : FileState :=
  .present (encodeTodos todos)

/-- App::load_todos (src/src/main.rs lines 56-61): a read error yields the
empty list, and so does a failed parse (unwrap_or_default). -/
def load_todos : FileState → List Todo
  | .missing => []
  | .present s => (parseTodos s).getD []

/-- The state main starts run_app with, for a given initial file state. -/
def mainApp (fs : FileState) : App :=
  App.initial (load_todos fs)


/-! ## Round trip of the Store serialization -/

theorem char_eq_of_toNat_eq {c d : Char} (h : c.toNat = d.toNat) : c = d := by
  apply Char.ext
  exact UInt32.toNat.inj h

theorem hexVal_hexDigitChar (m : Nat) (h : m < 16) : hexVal (hexDigitChar m) = some m := by
  interval_cases m <;> decide

theorem unescape_quote (rest : List Char) : unescape ('\"' :: rest) = some ([], rest) := by
  rw [unescape.eq_def]; simp

theorem unescape_escCode (e d : Char) (rest : List Char) (hu : ¬ e = 'u')
    (hd : escCode e = some d) :
    unescape ('\\' :: e :: rest) =
      match unescape rest with
      | some (s, r) => some (d :: s, r)
      | none => none := by
  rw [unescape.eq_def]; simp [hu, hd]

theorem unescape_u (h3 h4 : Char) (m1 m2 : Nat) (rest : List Char)
    (hm1 : hexVal h3 = some m1) (hm2 : hexVal h4 = some m2)
    (hval : (16 * m1 + m2).isValidChar) :
    unescape ('\\' :: 'u' :: '0' :: '0' :: h3 :: h4 :: rest) =
      match unescape rest with
      | some (s, r) => some (Char.ofNat (16 * m1 + m2) :: s, r)
      | none => none := by
  rw [unescape.eq_def]
  have h0 : hexVal '0' = some 0 := by decide
  simp only [h0, hm1, hm2]
  norm_num
  simp [hval]

theorem unescape_plain (c : Char) (rest : List Char) (h1 : ¬ c = '\"') (h2 : ¬ c = '\\')
    (h3 : ¬ c.toNat < 32) :
    unescape (c :: rest) =
      match unescape rest with
      | some (s, r) => some (c :: s, r)
      | none => none := by
  rw [unescape.eq_def]; simp [h1, h2, h3]

theorem unescape_escape (s rest : List Char) :
    unescape (s.flatMap escChar ++ ('\"' :: rest)) = some (s, rest) := by
  induction s with
  | nil => simpa using unescape_quote rest
  | cons c s ih =>
    simp only [List.flatMap_cons, List.append_assoc]
    by_cases h1 : c.toNat = 34
    · have hc : c = '\"' := char_eq_of_toNat_eq (by rw [h1]; decide)
      subst hc
      rw [show escChar '\"' = ['\\', '\"'] from by decide]
      simp only [List.cons_append, List.nil_append]
      rw [unescape_escCode '\"' '\"' _ (by decide) (by decide), ih]
    · by_cases h2 : c.toNat = 92
      · have hc : c = '\\' := char_eq_of_toNat_eq (by rw [h2]; decide)
        subst hc
        rw [show escChar '\\' = ['\\', '\\'] from by decide]
        simp only [List.cons_append, List.nil_append]
        rw [unescape_escCode '\\' '\\' _ (by decide) (by decide), ih]
      · by_cases h3 : c.toNat = 8
        · have hc : c = Char.ofNat 8 := char_eq_of_toNat_eq (by rw [h3]; decide)
          subst hc
          rw [show escChar (Char.ofNat 8) = ['\\', 'b'] from by decide]
          simp only [List.cons_append, List.nil_append]
          rw [unescape_escCode 'b' (Char.ofNat 8) _ (by decide) (by decide), ih]
        · by_cases h4 : c.toNat = 9
          · have hc : c = Char.ofNat 9 := char_eq_of_toNat_eq (by rw [h4]; decide)
            subst hc
            rw [show escChar (Char.ofNat 9) = ['\\', 't'] from by decide]
            simp only [List.cons_append, List.nil_append]
            rw [unescape_escCode 't' (Char.ofNat 9) _ (by decide) (by decide), ih]
          · by_cases h5 : c.toNat = 10
            · have hc : c = Char.ofNat 10 := char_eq_of_toNat_eq (by rw [h5]; decide)
              subst hc
              rw [show escChar (Char.ofNat 10) = ['\\', 'n'] from by decide]
              simp only [List.cons_append, List.nil_append]
              rw [unescape_escCode 'n' (Char.ofNat 10) _ (by decide) (by decide), ih]
            · by_cases h6 : c.toNat = 12
              · have hc : c = Char.ofNat 12 := char_eq_of_toNat_eq (by rw [h6]; decide)
                subst hc
                rw [show escChar (Char.ofNat 12) = ['\\', 'f'] from by decide]
                simp only [List.cons_append, List.nil_append]
                rw [unescape_escCode 'f' (Char.ofNat 12) _ (by decide) (by decide), ih]
              · by_cases h7 : c.toNat = 13
                · have hc : c = Char.ofNat 13 := char_eq_of_toNat_eq (by rw [h7]; decide)
                  subst hc
                  rw [show escChar (Char.ofNat 13) = ['\\', 'r'] from by decide]
                  simp only [List.cons_append, List.nil_append]
                  rw [unescape_escCode 'r' (Char.ofNat 13) _ (by decide) (by decide), ih]
                · by_cases h8 : c.toNat < 32
                  · rw [show escChar c
                        = ['\\', 'u', '0', '0', hexDigitChar (c.toNat / 16),
                           hexDigitChar (c.toNat % 16)] from by
                      simp [escChar, h1, h2, h3, h4, h5, h6, h7, h8]]
                    simp only [List.cons_append, List.nil_append]
                    rw [unescape_u _ _ (c.toNat / 16) (c.toNat % 16) _
                      (hexVal_hexDigitChar _ (by omega)) (hexVal_hexDigitChar _ (by omega))
                      (Or.inl (by omega)), ih]
                    have h16 : 16 * (c.toNat / 16) + c.toNat % 16 = c.toNat := by omega
                    rw [h16, Char.ofNat_toNat]
                  · have hq : ¬ c = '\"' := fun hc => h1 (by rw [hc]; decide)
                    have hb : ¬ c = '\\' := fun hc => h2 (by rw [hc]; decide)
                    rw [show escChar c = [c] from by
                      simp [escChar, h1, h2, h3, h4, h5, h6, h7, h8]]
                    simp only [List.cons_append, List.nil_append]
                    rw [unescape_plain c _ hq hb h8, ih]

theorem dropExact_append (p s : List Char) : dropExact p (p ++ s) = some s := by
  induction p with
  | nil => simp [dropExact]
  | cons c p ih => simp [dropExact, ih]

theorem parseBool_encode (b : Bool) (rest : List Char) :
    parseBool (encodeBool b ++ rest) = some (b, rest) := by
  cases b <;> rfl

theorem parseTodo_encode (t : Todo) (rest : List Char) :
    parseTodo (encodeTodo t ++ rest) = some (t, rest) := by
  obtain ⟨title, b⟩ := t
  cases b <;>
    simp [parseTodo, encodeTodo, encodeJString, kTitle, kCompleted, encodeBool, dropExact,
      lbrace, rbrace, parseBool, unescape_escape]

theorem parseItems_encode (l : List Todo) (t : Todo) (fuel : Nat) (rest : List Char)
    (h : l.length < fuel) :
    parseItems fuel (joinComma ((t :: l).map encodeTodo) ++ (']' :: rest)) =
      some (t :: l, rest) := by
  induction l generalizing t fuel rest with
  | nil =>
    obtain ⟨f, rfl⟩ : ∃ f, fuel = f + 1 := ⟨fuel - 1, by omega⟩
    simp only [List.map_cons, List.map_nil, joinComma]
    simp [parseItems, parseTodo_encode]
  | cons u l ih =>
    obtain ⟨f, rfl⟩ : ∃ f, fuel = f + 1 := ⟨fuel - 1, by omega⟩
    simp only [List.map_cons, joinComma, List.append_assoc, List.cons_append]
    simp only [parseItems, parseTodo_encode]
    have hih := ih u f rest (by simpa using Nat.lt_of_succ_lt_succ h)
    simp only [List.map_cons] at hih
    simp [hih]

theorem joinComma_length_ge (t : Todo) (l : List Todo) :
    l.length ≤ (joinComma ((t :: l).map encodeTodo)).length := by
  induction l generalizing t with
  | nil => simp
  | cons u l ih =>
    simp only [List.map_cons, joinComma, List.length_append, List.length_cons]
    have := ih u
    simp only [List.map_cons] at this
    omega

theorem parseTodos_encodeTodos (l : List Todo) : parseTodos (encodeTodos l) = some l := by
  cases l with
  | nil => decide
  | cons t l =>
    obtain ⟨Y, hY⟩ : ∃ Y, joinComma ((t :: l).map encodeTodo) = lbrace :: Y := by
      cases l <;> simp [joinComma, encodeTodo, List.map_cons]
    have hfuel : l.length < (joinComma ((t :: l).map encodeTodo) ++ ([']'] : List Char)).length + 1 := by
      have := joinComma_length_ge t l
      simp only [List.length_append]
      omega
    have hitems := parseItems_encode l t
      ((joinComma ((t :: l).map encodeTodo) ++ ([']'] : List Char)).length + 1) [] hfuel
    simp only [encodeTodos, parseTodos]
    rw [hY] at hitems ⊢
    simp only [List.cons_append, List.nil_append] at hitems ⊢
    have hlen : (lbrace :: (Y ++ ([']'] : List Char))).length + 1 = Y.length + 1 + 1 + 1 := by
      simp
    rw [hlen] at hitems
    simp only [lbrace] at hitems
    simp [lbrace, hitems]

/-! ## Reachable states and their invariants -/

/-- The selection is in bounds, except that it may be 0 on the empty list
(the j key sets it to 0 even when there is nothing to select). -/
def selOk (a : App) : Prop :=
  ∀ i, a.selected_index = some i → i < a.todos.length ∨ (i = 0 ∧ a.todos.length = 0)

/-- The editing index is present and in bounds exactly in TaskEditing mode. -/
def editOk (a : App) : Prop :=
  (a.input_mode = .TaskEditing → ∃ i, a.editing_task_index = some i ∧ i < a.todos.length) ∧
  (a.input_mode ≠ .TaskEditing → a.editing_task_index = none)

/-- The state invariant the run loop maintains. -/
def AppInv (a : App) : Prop := selOk a ∧ editOk a

/-- States the run loop can be in: an initial state for some loaded list, or
anything one key event away from a reachable state. -/
inductive Reachable : App → Prop where
  | init (todos : List Todo) : Reachable (App.initial todos)
  | step {a b : App} {k : KeyCode} {sv : Bool} :
      Reachable a → step a k = Step.next b sv → Reachable b

theorem selOk_stepNormal {a b : App} {k : KeyCode} {sv : Bool}
    (ha : selOk a) (h : stepNormal a k = Step.next b sv) : selOk b := by
  cases k with
  | char c =>
    simp only [stepNormal] at h
    split_ifs at h with h1 h2 h3 h4 h5
    · cases h
      exact ha
    · rcases hsi : a.selected_index with _ | i <;> simp only [hsi] at h
      · cases h
        intro j hj
        dsimp only at hj ⊢
        injection hj with hj
        omega
      · split_ifs at h with hlt
        · cases h
          intro j hj
          dsimp only at hj ⊢
          injection hj with hj
          omega
        · cases h
          exact ha
    · rcases hsi : a.selected_index with _ | i <;> simp only [hsi] at h
      · cases h
        exact ha
      · split_ifs at h with hlt
        · cases h
          intro j hj
          simp at hj ⊢
          have := ha i hsi
          omega
        · cases h
          exact ha
    · rcases hsi : a.selected_index with _ | i <;> simp only [hsi] at h
      · cases h
        exact ha
      · split_ifs at h with hlt
        · cases h
          intro j hj
          dsimp only at hj ⊢
          simp only [List.length_set]
          injection hj with hj
          have := ha i hsi
          omega
        · cases h
          exact ha
    · cases h
      exact ha
  | enter =>
    simp only [stepNormal] at h
    rcases hsi : a.selected_index with _ | i <;> simp only [hsi] at h
    · cases h
      exact ha
    · split_ifs at h with hlt
      · cases h
        intro j hj
        simp at hj ⊢
        omega
      · cases h
        exact ha
  | down =>
    simp only [stepNormal] at h
    rcases hsi : a.selected_index with _ | i <;> simp only [hsi] at h
    · cases h
      intro j hj
      dsimp only at hj ⊢
      injection hj with hj
      omega
    · split_ifs at h with hlt
      · cases h
        intro j hj
        dsimp only at hj ⊢
        injection hj with hj
        omega
      · cases h
        exact ha
  | up =>
    simp only [stepNormal] at h
    rcases hsi : a.selected_index with _ | i <;> simp only [hsi] at h
    · cases h
      exact ha
    · split_ifs at h with hlt
      · cases h
        intro j hj
        simp at hj ⊢
        have := ha i hsi
        omega
      · cases h
        exact ha
  | delete =>
    simp only [stepNormal] at h
    rcases hsi : a.selected_index with _ | i <;> simp only [hsi] at h
    · cases h
      exact ha
    · split_ifs at h with hlt hemp hlast
      · cases h
        intro j hj
        simp at hj
      · cases h
        intro j hj
        simp only [List.isEmpty_iff_length_eq_zero, List.length_eraseIdx, hlt, if_pos] at hemp hlast
        simp [List.length_eraseIdx, hlt] at hj ⊢
        omega
      · cases h
        intro j hj
        simp only [List.isEmpty_iff_length_eq_zero, List.length_eraseIdx, hlt, if_pos] at hemp hlast
        simp [List.length_eraseIdx, hlt] at hj ⊢
        omega
      · cases h
        exact ha
  | backspace =>
    simp only [stepNormal] at h
    rcases hsi : a.selected_index with _ | i <;> simp only [hsi] at h
    · cases h
      exact ha
    · split_ifs at h with hlt hemp hlast
      · cases h
        intro j hj
        simp at hj
      · cases h
        intro j hj
        simp only [List.isEmpty_iff_length_eq_zero, List.length_eraseIdx, hlt, if_pos] at hemp hlast
        simp [List.length_eraseIdx, hlt] at hj ⊢
        omega
      · cases h
        intro j hj
        simp only [List.isEmpty_iff_length_eq_zero, List.length_eraseIdx, hlt, if_pos] at hemp hlast
        simp [List.length_eraseIdx, hlt] at hj ⊢
        omega
      · cases h
        exact ha
  | esc =>
    simp only [stepNormal] at h
    cases h
    exact ha
  | other =>
    simp only [stepNormal] at h
    cases h
    exact ha

theorem selOk_stepTaskEditing {a b : App} {k : KeyCode} {sv : Bool}
    (ha : selOk a) (h : stepTaskEditing a k = Step.next b sv) : selOk b := by
  cases k with
  | enter =>
    simp only [stepTaskEditing] at h
    rcases hei : a.editing_task_index with _ | i <;> simp only [hei] at h
    · cases h
      exact ha
    · split_ifs at h with hemp hlt
      · cases h
        exact ha
      · cases h
        intro j hj
        dsimp only at hj ⊢
        simp only [List.length_set]
        exact ha j hj
  | char c =>
    simp only [stepTaskEditing] at h
    cases h
    exact ha
  | backspace =>
    simp only [stepTaskEditing] at h
    cases h
    exact ha
  | esc =>
    simp only [stepTaskEditing] at h
    cases h
    exact ha
  | down =>
    simp only [stepTaskEditing] at h
    cases h
    exact ha
  | up =>
    simp only [stepTaskEditing] at h
    cases h
    exact ha
  | delete =>
    simp only [stepTaskEditing] at h
    cases h
    exact ha
  | other =>
    simp only [stepTaskEditing] at h
    cases h
    exact ha

theorem selOk_stepEditing {a b : App} {k : KeyCode} {sv : Bool}
    (ha : selOk a) (h : stepEditing a k = Step.next b sv) : selOk b := by
  cases k with
  | enter =>
    simp only [stepEditing] at h
    split_ifs at h with hemp hsel
    · cases h
      exact ha
    · cases h
      intro j hj
      dsimp only at hj ⊢
      injection hj with hj
      simp only [List.length_append, List.length_cons, List.length_nil]
      omega
    · cases h
      intro j hj
      dsimp only at hj ⊢
      simp only [List.length_append, List.length_cons, List.length_nil]
      have := ha j hj
      omega
  | char c =>
    simp only [stepEditing] at h
    cases h
    exact ha
  | backspace =>
    simp only [stepEditing] at h
    cases h
    exact ha
  | esc =>
    simp only [stepEditing] at h
    cases h
    exact ha
  | down =>
    simp only [stepEditing] at h
    cases h
    exact ha
  | up =>
    simp only [stepEditing] at h
    cases h
    exact ha
  | delete =>
    simp only [stepEditing] at h
    cases h
    exact ha
  | other =>
    simp only [stepEditing] at h
    cases h
    exact ha

theorem editOk_stepNormal {a b : App} {k : KeyCode} {sv : Bool}
    (hm : a.input_mode = InputMode.Normal) (ha : editOk a)
    (h : stepNormal a k = Step.next b sv) : editOk b := by
  have hnone : a.editing_task_index = none := ha.2 (by rw [hm]; decide)
  cases k with
  | char c =>
    simp only [stepNormal] at h
    split_ifs at h with h1 h2 h3 h4 h5
    · cases h
      exact ⟨fun hTE => (by cases hTE), fun _ => hnone⟩
    · rcases hsi : a.selected_index with _ | i <;> simp only [hsi] at h
      · cases h
        exact ⟨fun hTE => (by rw [hm] at hTE; cases hTE), fun _ => hnone⟩
      · split_ifs at h with hlt
        · cases h
          exact ⟨fun hTE => (by rw [hm] at hTE; cases hTE), fun _ => hnone⟩
        · cases h
          exact ha
    · rcases hsi : a.selected_index with _ | i <;> simp only [hsi] at h
      · cases h
        exact ha
      · split_ifs at h with hlt
        · cases h
          exact ⟨fun hTE => (by rw [hm] at hTE; cases hTE), fun _ => hnone⟩
        · cases h
          exact ha
    · rcases hsi : a.selected_index with _ | i <;> simp only [hsi] at h
      · cases h
        exact ha
      · split_ifs at h with hlt
        · cases h
          exact ⟨fun hTE => (by rw [hm] at hTE; cases hTE), fun _ => hnone⟩
        · cases h
          exact ha
    · cases h
      exact ha
  | enter =>
    simp only [stepNormal] at h
    rcases hsi : a.selected_index with _ | i <;> simp only [hsi] at h
    · cases h
      exact ha
    · split_ifs at h with hlt
      · cases h
        exact ⟨fun _ => ⟨i, rfl, hlt⟩, fun hn => absurd rfl hn⟩
      · cases h
        exact ha
  | down =>
    simp only [stepNormal] at h
    rcases hsi : a.selected_index with _ | i <;> simp only [hsi] at h
    · cases h
      exact ⟨fun hTE => (by rw [hm] at hTE; cases hTE), fun _ => hnone⟩
    · split_ifs at h with hlt
      · cases h
        exact ⟨fun hTE => (by rw [hm] at hTE; cases hTE), fun _ => hnone⟩
      · cases h
        exact ha
  | up =>
    simp only [stepNormal] at h
    rcases hsi : a.selected_index with _ | i <;> simp only [hsi] at h
    · cases h
      exact ha
    · split_ifs at h with hlt
      · cases h
        exact ⟨fun hTE => (by rw [hm] at hTE; cases hTE), fun _ => hnone⟩
      · cases h
        exact ha
  | delete =>
    simp only [stepNormal] at h
    rcases hsi : a.selected_index with _ | i <;> simp only [hsi] at h
    · cases h
      exact ha
    · split_ifs at h with hlt hemp hlast
      · cases h
        exact ⟨fun hTE => (by rw [hm] at hTE; cases hTE), fun _ => hnone⟩
      · cases h
        exact ⟨fun hTE => (by rw [hm] at hTE; cases hTE), fun _ => hnone⟩
      · cases h
        exact ⟨fun hTE => (by rw [hm] at hTE; cases hTE), fun _ => hnone⟩
      · cases h
        exact ha
  | backspace =>
    simp only [stepNormal] at h
    rcases hsi : a.selected_index with _ | i <;> simp only [hsi] at h
    · cases h
      exact ha
    · split_ifs at h with hlt hemp hlast
      · cases h
        exact ⟨fun hTE => (by rw [hm] at hTE; cases hTE), fun _ => hnone⟩
      · cases h
        exact ⟨fun hTE => (by rw [hm] at hTE; cases hTE), fun _ => hnone⟩
      · cases h
        exact ⟨fun hTE => (by rw [hm] at hTE; cases hTE), fun _ => hnone⟩
      · cases h
        exact ha
  | esc =>
    simp only [stepNormal] at h
    cases h
    exact ha
  | other =>
    simp only [stepNormal] at h
    cases h
    exact ha

theorem editOk_stepTaskEditing {a b : App} {k : KeyCode} {sv : Bool}
    (ha : editOk a)
    (h : stepTaskEditing a k = Step.next b sv) : editOk b := by
  cases k with
  | enter =>
    simp only [stepTaskEditing] at h
    rcases hei : a.editing_task_index with _ | i <;> simp only [hei] at h
    · cases h
      exact ha
    · split_ifs at h with hemp hlt
      · cases h
        exact ⟨fun hTE => (by cases hTE), fun _ => rfl⟩
      · cases h
        exact ⟨fun hTE => (by cases hTE), fun _ => rfl⟩
  | char c =>
    simp only [stepTaskEditing] at h
    cases h
    exact ha
  | backspace =>
    simp only [stepTaskEditing] at h
    cases h
    exact ha
  | esc =>
    simp only [stepTaskEditing] at h
    cases h
    exact ⟨fun hTE => (by cases hTE), fun _ => rfl⟩
  | down =>
    simp only [stepTaskEditing] at h
    cases h
    exact ha
  | up =>
    simp only [stepTaskEditing] at h
    cases h
    exact ha
  | delete =>
    simp only [stepTaskEditing] at h
    cases h
    exact ha
  | other =>
    simp only [stepTaskEditing] at h
    cases h
    exact ha

theorem editOk_stepEditing {a b : App} {k : KeyCode} {sv : Bool}
    (hm : a.input_mode = InputMode.Editing) (ha : editOk a)
    (h : stepEditing a k = Step.next b sv) : editOk b := by
  have hnone : a.editing_task_index = none := ha.2 (by rw [hm]; decide)
  cases k with
  | enter =>
    simp only [stepEditing] at h
    split_ifs at h with hemp hsel
    · cases h
      exact ⟨fun hTE => (by cases hTE), fun _ => hnone⟩
    · cases h
      exact ⟨fun hTE => (by cases hTE), fun _ => hnone⟩
    · cases h
      exact ⟨fun hTE => (by cases hTE), fun _ => hnone⟩
  | char c =>
    simp only [stepEditing] at h
    cases h
    exact ha
  | backspace =>
    simp only [stepEditing] at h
    cases h
    exact ha
  | esc =>
    simp only [stepEditing] at h
    cases h
    exact ⟨fun hTE => (by cases hTE), fun _ => hnone⟩
  | down =>
    simp only [stepEditing] at h
    cases h
    exact ha
  | up =>
    simp only [stepEditing] at h
    cases h
    exact ha
  | delete =>
    simp only [stepEditing] at h
    cases h
    exact ha
  | other =>
    simp only [stepEditing] at h
    cases h
    exact ha

theorem appInv_step {a b : App} {k : KeyCode} {sv : Bool}
    (ha : AppInv a) (h : step a k = Step.next b sv) : AppInv b := by
  rcases hm : a.input_mode with _ | _ | _ <;> simp only [step, hm] at h
  · exact ⟨selOk_stepNormal ha.1 h, editOk_stepNormal hm ha.2 h⟩
  · exact ⟨selOk_stepEditing ha.1 h, editOk_stepEditing hm ha.2 h⟩
  · exact ⟨selOk_stepTaskEditing ha.1 h, editOk_stepTaskEditing ha.2 h⟩

theorem appInv_initial (todos : List Todo) : AppInv (App.initial todos) := by
  refine ⟨fun i hi => ?_, fun hTE => ?_, fun _ => rfl⟩
  · cases hi
  · cases hTE

theorem reachable_appInv {a : App} (hr : Reachable a) : AppInv a := by
  induction hr with
  | init todos => exact appInv_initial todos
  | step hr hstep ih => exact appInv_step ih hstep

theorem stepNormal_ne_crash (a : App) (k : KeyCode) : stepNormal a k ≠ Step.crash := by
  intro h
  cases k <;> simp only [stepNormal] at h <;>
    try split_ifs at h
  all_goals (
    try (rcases hsi : a.selected_index with _ | i <;> simp only [hsi] at h <;>
      try split_ifs at h))
  all_goals cases h

theorem stepEditing_ne_crash (a : App) (k : KeyCode) : stepEditing a k ≠ Step.crash := by
  intro h
  cases k <;> simp only [stepEditing] at h <;> try split_ifs at h
  all_goals cases h

theorem stepTaskEditing_ne_crash {a : App} (hTE : ∃ i, a.editing_task_index = some i ∧ i < a.todos.length)
    (k : KeyCode) : stepTaskEditing a k ≠ Step.crash := by
  intro h
  obtain ⟨i, hei, hlt⟩ := hTE
  cases k <;> simp only [stepTaskEditing] at h
  case enter =>
    rw [hei] at h
    simp only at h
    split_ifs at h with hemp
  all_goals cases h

theorem step_ne_crash {a : App} (hr : Reachable a) (k : KeyCode) : step a k ≠ Step.crash := by
  have hi := reachable_appInv hr
  rcases hm : a.input_mode with _ | _ | _ <;> simp only [step, hm]
  · exact stepNormal_ne_crash a k
  · exact stepEditing_ne_crash a k
  · exact stepTaskEditing_ne_crash (hi.2.1 hm) k

/-! ## Helper lemmas about list indexing -/

theorem set_get_self {α : Type} (l : List α) (i : Nat) (h : i < l.length) :
    l.set i (l.get ⟨i, h⟩) = l := by
  induction l generalizing i with
  | nil => cases h
  | cons x xs ih =>
    cases i with
    | zero => rfl
    | succ j =>
      simp only [List.set, List.get]
      rw [ih]

theorem get_set_self {α : Type} (l : List α) (i : Nat) (v : α) (h : i < (l.set i v).length) :
    (l.set i v).get ⟨i, h⟩ = v := by
  induction l generalizing i with
  | nil => simp at h
  | cons x xs ih =>
    cases i with
    | zero => rfl
    | succ j =>
      simp only [List.set, List.get]
      rw [ih]

theorem getElem?_eraseIdx_self {α : Type} (l : List α) (i : Nat) (h : i + 1 < l.length) :
    (l.eraseIdx i)[i]? = l[i + 1]? := by
  induction l generalizing i with
  | nil => simp at h
  | cons x xs ih =>
    cases i with
    | zero => simp [List.eraseIdx]
    | succ j =>
      simp only [List.eraseIdx]
      have hj : j + 1 < xs.length := by simp at h; omega
      simpa using ih j hj

/-- The shape of one toggle keypress (Space in Normal mode with a valid
selection). -/
theorem step_toggle (a : App) (i : Nat) (hm : a.input_mode = InputMode.Normal)
    (hsi : a.selected_index = some i) (hlt : i < a.todos.length) :
    step a (KeyCode.char ' ') =
      Step.next { a with todos := a.todos.set i (Todo.mk (a.todos.get ⟨i, hlt⟩).title (!(a.todos.get ⟨i, hlt⟩).completed)) } true := by
  simp only [step, hm, stepNormal]
  rw [if_neg (by decide), if_neg (by decide), if_neg (by decide), if_neg (by decide)]
  simp only [if_true]
  rw [hsi]
  simp only [dif_pos hlt]

/-! ## The claims -/

/-- C1, counterexample: from the initial state with an empty list, the j key
sets the selection to Some 0 while the list stays empty, so the selection is
not None exactly when the list is empty. -/
theorem C1_counterexample :
    step (App.initial []) (KeyCode.char 'j')
      = Step.next { App.initial [] with selected_index := some 0 } false
    ∧ ¬(({ App.initial [] with selected_index := some 0 } : App).selected_index = none
        ↔ ({ App.initial [] with selected_index := some 0 } : App).todos = []) := by
  constructor
  · decide
  · decide

/-- C1 (amended): in every reachable state, a present selection index i
satisfies i < len(TaskList), except that i = 0 is also possible on the empty
list (reached by j/Down on an empty list); and the selection can be None on
a non-empty list (the initial state).  The original equivalence (selection
None exactly when the list is empty) fails on both counts. -/
theorem C1_selection_invariant {a : App} (hr : Reachable a) :
    ∀ i, a.selected_index = some i →
      i < a.todos.length ∨ (i = 0 ∧ a.todos.length = 0) :=
  (reachable_appInv hr).1

theorem C1_selection_invariant_witness :
    (0 : Nat) < [Todo.mk ['a'] false].length
    ∨ ((0 : Nat) = 0 ∧ ([Todo.mk ['a'] false] : List Todo).length = 0) := by
  have h1 : Reachable (App.initial [Todo.mk ['a'] false]) := Reachable.init _
  have h2 : step (App.initial [Todo.mk ['a'] false]) (KeyCode.char 'j')
      = Step.next { App.initial [Todo.mk ['a'] false] with selected_index := some 0 } false := by
    decide
  exact C1_selection_invariant (Reachable.step h1 h2) 0 rfl

/-- C2, counterexample: main loads a non-empty list but starts with
selection = None, not Some 0. -/
theorem C2_counterexample :
    (mainApp (save_todos [Todo.mk ['a'] false])).todos = [Todo.mk ['a'] false]
    ∧ (mainApp (save_todos [Todo.mk ['a'] false])).selected_index = none := by
  constructor
  · decide
  · decide

/-- C2 (amended): at startup the session is in Normal mode with the TaskList
loaded from the Store, and the selection is None regardless of whether the
loaded list is empty (the editing index is None as well). -/
theorem C2_initial_state (fs : FileState) :
    (mainApp fs).input_mode = InputMode.Normal
    ∧ (mainApp fs).selected_index = none
    ∧ (mainApp fs).editing_task_index = none
    ∧ (mainApp fs).todos = load_todos fs :=
  ⟨rfl, rfl, rfl, rfl⟩

/-- C3, counterexample: Esc in Creating mode with editBuffer 'a' returns to
Normal mode but keeps the buffer contents instead of discarding them. -/
theorem C3_counterexample :
    step (App.mk [] ['a'] InputMode.Editing none none) KeyCode.esc
      = Step.next (App.mk [] ['a'] InputMode.Normal none none) false
    ∧ (App.mk [] ['a'] InputMode.Normal none none).input ≠ [] := by
  constructor
  · decide
  · decide

/-- C3 (amended): in Creating mode Esc transitions to Normal without
persisting and leaves the TaskList unchanged, but the editBuffer is NOT
discarded: it is left exactly as it was. -/
theorem C3_creating_esc (a : App) (h : a.input_mode = InputMode.Editing) :
    step a KeyCode.esc = Step.next { a with input_mode := InputMode.Normal } false := by
  simp only [step, h, stepEditing]

theorem C3_creating_esc_witness :
    step (App.mk [] ['a'] InputMode.Editing none none) KeyCode.esc
      = Step.next { App.mk [] ['a'] InputMode.Editing none none with
          input_mode := InputMode.Normal } false :=
  C3_creating_esc _ rfl

/-- C4, counterexample: the rename transition (Enter in TaskEditing with a
non-empty editBuffer) does not recheck bounds: at a state whose
editingIndex is 0 with an empty TaskList it performs an out-of-range
access (a Rust panic), rather than being a no-op. -/
theorem C4_counterexample :
    step (App.mk [] ['x'] InputMode.TaskEditing none (some 0)) KeyCode.enter
      = Step.crash := by
  decide

/-- C4 (amended): toggle and delete recheck bounds when they act and are
no-ops when the selection is out of bounds; the rename transition performs
no such recheck (it crashes on an out-of-bounds editingIndex), but in every
state reachable from an initial state the editingIndex is in bounds while
in TaskEditing mode, so no transition from a reachable state ever performs
an out-of-range access. -/
theorem C4_bounds_policy :
    (∀ (a : App) (i : Nat), a.input_mode = InputMode.Normal →
        a.selected_index = some i → a.todos.length ≤ i →
        step a (KeyCode.char ' ') = Step.next a false
        ∧ step a KeyCode.delete = Step.next a false)
    ∧ (∀ (a : App) (k : KeyCode), Reachable a → step a k ≠ Step.crash) := by
  constructor
  · intro a i hm hsi hle
    have hn : ¬ i < a.todos.length := by omega
    constructor
    · simp only [step, hm, stepNormal]
      rw [if_neg (by decide), if_neg (by decide), if_neg (by decide), if_neg (by decide)]
      simp only [if_true]
      rw [hsi]
      simp only [dif_neg hn]
    · simp only [step, hm, stepNormal]
      rw [hsi]
      simp only [if_neg hn]
  · intro a k hr
    exact step_ne_crash hr k

theorem C4_bounds_policy_witness :
    (step (App.mk [] [] InputMode.Normal (some 5) none) (KeyCode.char ' ')
        = Step.next (App.mk [] [] InputMode.Normal (some 5) none) false)
    ∧ step (App.initial []) KeyCode.enter ≠ Step.crash :=
  ⟨(C4_bounds_policy.1 _ 5 rfl rfl (by decide)).1,
   C4_bounds_policy.2 _ _ (Reachable.init [])⟩

/-- C5: Delete in Normal mode with a valid selection removes the task at
the selected index (the list becomes take i ++ drop (i+1), one element
shorter), persists, and re-clamps the selection: None when the list becomes
empty, Some (i-1) when the deleted item was at the last index, else the
selection stays Some i, where index i now holds the item that followed the
deleted one. -/
theorem C5_delete (a : App) (i : Nat) (hm : a.input_mode = InputMode.Normal)
    (hsi : a.selected_index = some i) (hlt : i < a.todos.length) :
    step a KeyCode.delete = Step.next { a with todos := a.todos.eraseIdx i, selected_index := if a.todos.length - 1 = 0 then none else if i = a.todos.length - 1 then some (i - 1) else some i } true
    ∧ a.todos.eraseIdx i = a.todos.take i ++ a.todos.drop (i + 1)
    ∧ (a.todos.eraseIdx i).length = a.todos.length - 1
    ∧ (i + 1 < a.todos.length → (a.todos.eraseIdx i)[i]? = a.todos[i + 1]?) := by
  refine ⟨?_, List.eraseIdx_eq_take_drop_succ a.todos i, ?_, fun hsucc => getElem?_eraseIdx_self a.todos i hsucc⟩
  · simp only [step, hm, stepNormal]
    rw [hsi]
    simp only [if_pos hlt]
    have hsel : (if (a.todos.eraseIdx i).isEmpty = true then none
        else if i = (a.todos.eraseIdx i).length then some (i - 1) else some i)
        = (if a.todos.length - 1 = 0 then none
           else if i = a.todos.length - 1 then some (i - 1) else some i) := by
      simp only [List.isEmpty_iff_length_eq_zero, List.length_eraseIdx, hlt, if_true]
    rw [hsel]
  · simp only [List.length_eraseIdx, hlt, if_true]

theorem C5_delete_witness :
    step (App.mk [Todo.mk ['a'] false, Todo.mk ['b'] true, Todo.mk ['c'] false] []
        InputMode.Normal (some 2) none) KeyCode.delete
      = Step.next (App.mk [Todo.mk ['a'] false, Todo.mk ['b'] true] []
        InputMode.Normal (some 1) none) true := by
  have h := (C5_delete (App.mk [Todo.mk ['a'] false, Todo.mk ['b'] true, Todo.mk ['c'] false]
    [] InputMode.Normal (some 2) none) 2 rfl rfl (by decide)).1
  rw [h]
  decide

/-- C6: toggling (Space in Normal mode) a validly selected task twice is the
identity on the whole session state, and each of the two presses persists
(invokes Store.save): there is an intermediate state b with
step a Space = next b (saved) and step b Space = next a (saved). -/
theorem C6_toggle_twice (a : App) (i : Nat) (hm : a.input_mode = InputMode.Normal)
    (hsi : a.selected_index = some i) (hlt : i < a.todos.length) :
    ∃ b : App, step a (KeyCode.char ' ') = Step.next b true
      ∧ step b (KeyCode.char ' ') = Step.next a true := by
  refine ⟨_, step_toggle a i hm hsi hlt, ?_⟩
  have hlt2 : i < (a.todos.set i (Todo.mk (a.todos.get ⟨i, hlt⟩).title
      (!(a.todos.get ⟨i, hlt⟩).completed))).length := by
    simpa using hlt
  have h2 := step_toggle { a with todos := a.todos.set i (Todo.mk (a.todos.get ⟨i, hlt⟩).title (!(a.todos.get ⟨i, hlt⟩).completed)) } i hm hsi hlt2
  rw [h2]
  congr 1
  have hget : (a.todos.set i (Todo.mk (a.todos.get ⟨i, hlt⟩).title
      (!(a.todos.get ⟨i, hlt⟩).completed))).get ⟨i, hlt2⟩
      = Todo.mk (a.todos.get ⟨i, hlt⟩).title (!(a.todos.get ⟨i, hlt⟩).completed) :=
    get_set_self _ _ _ _
  rw [hget]
  simp only [Bool.not_not, List.set_set]
  have : Todo.mk (a.todos.get ⟨i, hlt⟩).title (a.todos.get ⟨i, hlt⟩).completed
      = a.todos.get ⟨i, hlt⟩ := rfl
  rw [this, set_get_self]

theorem C6_toggle_twice_witness :
    ∃ b : App, step (App.mk [Todo.mk ['a'] false] [] InputMode.Normal (some 0) none)
        (KeyCode.char ' ') = Step.next b true
      ∧ step b (KeyCode.char ' ')
        = Step.next (App.mk [Todo.mk ['a'] false] [] InputMode.Normal (some 0) none) true :=
  C6_toggle_twice _ 0 rfl rfl (by decide)

/-- C7: the Store round-trips: saving any TaskList and loading it back
yields a list equal field-for-field (same titles, same completed flags,
same order). -/
theorem C7_round_trip (l : List Todo) : load_todos (save_todos l) = l := by
  simp only [load_todos, save_todos, parseTodos_encodeTodos, Option.getD_some]

/-- C8: loading treats a missing file as the empty list and a file whose
contents do not parse as the empty list; in neither case is an error
surfaced (load_todos total and returns a plain list). -/
theorem C8_load_recovery :
    load_todos FileState.missing = []
    ∧ ∀ s : List Char, parseTodos s = none → load_todos (FileState.present s) = [] :=
  ⟨rfl, fun s h => by simp only [load_todos, h, Option.getD_none]⟩

theorem C8_load_recovery_witness :
    parseTodos ['g'] = none ∧ load_todos (FileState.present ['g']) = [] :=
  ⟨by decide, C8_load_recovery.2 ['g'] (by decide)⟩

/-- C9: Enter in Creating mode with an empty editBuffer returns to Normal
mode with the whole rest of the state unchanged (no task appended) and does
not invoke Store.save. -/
theorem C9_creating_enter_empty (a : App) (hm : a.input_mode = InputMode.Editing)
    (he : a.input = []) :
    step a KeyCode.enter = Step.next { a with input_mode := InputMode.Normal } false := by
  simp only [step, hm, stepEditing, he, List.isEmpty_nil, if_true]

theorem C9_creating_enter_empty_witness :
    step (App.mk [Todo.mk ['a'] false] [] InputMode.Editing none none) KeyCode.enter
      = Step.next (App.mk [Todo.mk ['a'] false] [] InputMode.Normal none none) false :=
  C9_creating_enter_empty _ rfl rfl

/-- C10: in every reachable state, if the mode is not TaskEditing then the
editing index is None (it is set only by the Normal-mode Enter transition
that enters TaskEditing, and cleared by both exits from TaskEditing). -/
theorem C10_editing_index_none {a : App} (hr : Reachable a)
    (hm : a.input_mode ≠ InputMode.TaskEditing) : a.editing_task_index = none :=
  (reachable_appInv hr).2.2 hm

theorem C10_editing_index_none_witness :
    (App.initial [Todo.mk ['a'] false]).editing_task_index = none :=
  C10_editing_index_none (Reachable.init _) (by decide)
